import Mathlib

/-!
Verification development for the PyOmniTS repository.

Shallow embedding of the parts of the code relevant to the frozen claims:

* `src/layers/CRU/models.py` — `load_model` and the model variants
  (`Pendulum_reg`, `Pendulum`, `Physionet_USHCN`) with their decoder-head
  layer stacks.
* `src/layers/stribor/stribor/flow.py` — `Transform`, `NormalizingFlow`.
* `src/layers/stribor/stribor/flows/affine.py` — `Affine`, `AffineLU`,
  `MatrixExponential`.
* `src/layers/stribor/stribor/net/mlp.py` — `MLP`.
* `src/layers/GNeuralFlow/models/resnet_flow.py` — `ResNetFlowBlock`,
  `ResNetFlowNF`.

Conventions of the embedding:

* Tensors of the relevant rank are modelled as vectors `Fin n → ℚ` (the batch
  dimension, over which all these operations act independently, is dropped);
  matrices are `Matrix (Fin n) (Fin n) ℚ`.
* Real-valued tensor arithmetic is modelled exactly over `ℚ`.  The
  transcendental functions used by the code (`torch.exp`, `torch.log1p`,
  activations such as `torch.nn.Tanh`) are not rational-valued, so they are
  passed as explicit function parameters (`e`, `l1p`, `act` …); theorems that
  need a property of the real function (such as `exp a * exp (-a) = 1`) take
  it as a hypothesis.
* Learned networks that the code treats as black boxes (the `MLP`s inside
  `ResNetFlowBlock`, `latent_net` inside `Affine`) are opaque function
  parameters stored in the structure.
* Python code that raises is modelled with `Option`/`Except`.
-/

/-! # Part 1: `src/layers/CRU/models.py` -/

namespace CRUModels

/-- The configuration surface consumed by `load_model` (`configs.dataset`,
`configs.task`, `configs.latent_state_dim`, `configs.hidden_units`). -/
structure Configs where
  dataset : String
  task : String
  latent_state_dim : ℕ
  hidden_units : ℕ
deriving DecidableEq, Repr

/-- Which model class `load_model` instantiates. -/
inductive ModelKind where
  | Pendulum_reg
  | Pendulum
  | Physionet_USHCN
deriving DecidableEq, Repr

/-- The `target_dim` argument is either a plain integer (regression / vector targets) or
the image tuple `(1, 24, 24)` used by the pendulum interpolation model. -/
inductive TargetDim where
  | vec (n : ℕ)
  | img (c h w : ℕ)
deriving DecidableEq, Repr

/-- The constructor arguments `load_model` passes to the chosen model class.
`layer_norm` and `bernoulli_output` are `none` when the call site does not
pass the keyword (the class default is then used). -/
structure LoadedModel where
  kind : ModelKind
  target_dim : TargetDim
  lsd : ℕ
  layer_norm : Option Bool
  bernoulli_output : Option Bool
deriving DecidableEq, Repr

/-- Error message of the `raise Exception(...)` in the pendulum branch of
`load_model`. -/
def pendulumTaskMsg : String := "Task not available for Pendulum data"

/-- When no dataset branch matches, `load_model` reaches `return model` with
`model` never assigned; Python raises an `UnboundLocalError` whose message
names the variable `model`, not the offending configuration value. -/
def unboundLocalMsg : String :=
  "UnboundLocalError: local variable model referenced before assignment"

/-- Embedding of `load_model` from `src/layers/CRU/models.py` (lines 28–51). -/
def load_model (configs : Configs) : Except String LoadedModel :=
  if configs.dataset = "pendulum" then
    if configs.task = "regression" then
      .ok ⟨.Pendulum_reg, .vec 2, configs.latent_state_dim, some false, none⟩
    else if configs.task = "interpolation" then
      .ok ⟨.Pendulum, .img 1 24 24, configs.latent_state_dim, some true, some true⟩
    else
      .error pendulumTaskMsg
  else if configs.dataset = "ushcn" then
    .ok ⟨.Physionet_USHCN, .vec 5, configs.latent_state_dim, none, none⟩
  else if configs.dataset = "physionet" then
    .ok ⟨.Physionet_USHCN, .vec 37, configs.latent_state_dim, none, none⟩
  else
    .error unboundLocalMsg

/-- Tests whether `pat` starts the character list `s`. -/
def beginsWith : List Char → List Char → Bool
  | [], _ => true
  | _ :: _, [] => false
  | a :: pat, b :: s => a = b && beginsWith pat s

/-- Tests whether `pat` occurs as a contiguous substring of `s`; used to formalise
"the error message names the invalid option". -/
def occursIn (pat : List Char) : List Char → Bool
  | [] => beginsWith pat []
  | b :: s => beginsWith pat (b :: s) || occursIn pat s

end CRUModels

/-! # Part 2: `src/layers/stribor/stribor/flow.py` -/

namespace Stribor

/-- A `Transform` (`flow.py`, class `Transform`): the abstract interface has
`forward`, `inverse`, `log_det_jacobian`, and the two derived methods
`forward_and_log_det_jacobian` / `inverse_and_log_det_jacobian`, which
subclasses may override.  Dynamic dispatch is modelled by making all five
operations fields; `Transform.ofBase` below builds the record a subclass gets
when it inherits the two derived methods from the base class. -/
structure Transform (α : Type) where
  fwd : α → α
  inv : α → α
  ldj : α → α → ℚ
  fwdLdj : α → α × ℚ
  invLdj : α → α × ℚ

/-- A transform that keeps the base-class implementations of
`forward_and_log_det_jacobian` (`flow.py` lines 25–28) and
`inverse_and_log_det_jacobian` (lines 30–33). -/
def Transform.ofBase {α : Type} (fwd inv : α → α) (ldj : α → α → ℚ) : Transform α where
  fwd := fwd
  inv := inv
  ldj := ldj
  fwdLdj := fun x => (fwd x, ldj x (fwd x))
  invLdj := fun y => (inv y, -(ldj (inv y) y))

/-- The `NormalizingFlow` class (`flow.py` lines 53–121).  The base distribution is
modelled by its two draw procedures, each threading an abstract RNG state
(`ℕ`): `baseSample` stands for `base_dist.sample`, `baseRSample` for
`base_dist.rsample`; both take the requested sample count. -/
structure NormalizingFlow (α : Type) where
  baseSample : ℕ → ℕ → α × ℕ
  baseRSample : ℕ → ℕ → α × ℕ
  transforms : List (Transform α)

/-- Embedding of `NormalizingFlow.forward`: `for f in self.transforms: x = f(x)`. -/
def NormalizingFlow.forward {α} (nf : NormalizingFlow α) (x : α) : α :=
  nf.transforms.foldl (fun x f => f.fwd x) x

/-- Embedding of `NormalizingFlow.inverse`: `for f in reversed(self.transforms): y = f.inverse(y)`. -/
def NormalizingFlow.inverse {α} (nf : NormalizingFlow α) (y : α) : α :=
  nf.transforms.reverse.foldl (fun y f => f.inv y) y

/-- Embedding of `NormalizingFlow.forward_and_log_det_jacobian` (lines 87–92):
`log_det_jac = 0`, then for each transform in list order accumulate
`x, ldj = f.forward_and_log_det_jacobian(x); log_det_jac += ldj`. -/
def NormalizingFlow.forward_and_log_det_jacobian {α} (nf : NormalizingFlow α)
    (x : α) : α × ℚ :=
  nf.transforms.foldl
    (fun p f => let q := f.fwdLdj p.1; (q.1, p.2 + q.2)) (x, 0)

/-- Embedding of `NormalizingFlow.inverse_and_log_det_jacobian` (lines 94–99): the same
accumulation over `reversed(self.transforms)` using each transform's
`inverse_and_log_det_jacobian`. -/
def NormalizingFlow.inverse_and_log_det_jacobian {α} (nf : NormalizingFlow α)
    (y : α) : α × ℚ :=
  nf.transforms.reverse.foldl
    (fun p f => let q := f.invLdj p.1; (q.1, p.2 + q.2)) (y, 0)

/-- Embedding of `NormalizingFlow.sample` (lines 106–114): draw from the base distribution
(`rsample` only when the keyword-only flag `rsample=True` is passed), then push
through `self.forward`. -/
def NormalizingFlow.sample {α} (nf : NormalizingFlow α) (numSamples : ℕ)
    (rsampleFlag : Bool) (g : ℕ) : α × ℕ :=
  let d := if rsampleFlag then nf.baseRSample numSamples g
           else nf.baseSample numSamples g
  (nf.forward d.1, d.2)

/-- Embedding of `NormalizingFlow.rsample` (lines 116–117): `return self.sample(num_samples,
**kwargs)` — the `rsample` keyword is left at its default `False`. -/
def NormalizingFlow.rsample {α} (nf : NormalizingFlow α) (numSamples : ℕ)
    (g : ℕ) : α × ℕ :=
  nf.sample numSamples false g

/-- Reference (specification-side) recursion: the per-transform
log-determinants `log_det_jacobian(x_k, forward(x_k))` accumulated in forward
(list) order along the trajectory of intermediate values. -/
def ldjSumFwd {α} : List (Transform α) → α → ℚ
  | [], _ => 0
  | f :: fs, x => f.ldj x (f.fwd x) + ldjSumFwd fs (f.fwd x)

/-- Forward-order application of a list of transforms. -/
def applyFwd {α} (ts : List (Transform α)) (x : α) : α :=
  ts.foldl (fun x f => f.fwd x) x

/-- Reference recursion for the inverse traversal: the per-transform
log-determinants `log_det_jacobian(inverse(y_k), y_k)` accumulated while the
(already reversed) transforms are applied back to front. -/
def ldjSumRev {α} : List (Transform α) → α → ℚ
  | [], _ => 0
  | f :: fs, y => f.ldj (f.inv y) y + ldjSumRev fs (f.inv y)

/-- Back-to-front application of an (already reversed) list of transforms. -/
def applyRev {α} (ts : List (Transform α)) (y : α) : α :=
  ts.foldl (fun y f => f.inv y) y

/-- Coherence of one transform record: its derived methods agree with the
base-class recipe and its `inverse` is a genuine left inverse of `forward`.
Every concrete invertible transform in the library satisfies this. -/
def Transform.Coherent {α : Type} (f : Transform α) : Prop :=
  (∀ x, f.fwdLdj x = (f.fwd x, f.ldj x (f.fwd x))) ∧
  (∀ y, f.invLdj y = (f.inv y, -(f.ldj (f.inv y) y))) ∧
  (∀ x, f.inv (f.fwd x) = x)

end Stribor

/-! # Part 3: semantics of the `torch` linear-algebra calls used by `affine.py` -/

namespace Torch

/-- Vectors over the embedding's exact scalar field. -/
abbrev Vec (n : ℕ) := Fin n → ℚ

/-- Square matrices over the embedding's exact scalar field. -/
abbrev Mat (n : ℕ) := Matrix (Fin n) (Fin n) ℚ

/-- Semantics of `torch.linalg.solve_triangular(M, w, upper=False, left=True)`:
forward substitution reading only the lower triangle of `M`.  When
`unit = true` (`unitriangular=True`) the diagonal is taken to be `1` and the
stored diagonal entries are ignored. -/
def lsolve {n : ℕ} (unit : Bool) (M : Mat n) (w : Vec n) : Fin n → ℚ
  | i =>
    (w i - ∑ j ∈ (Finset.univ.filter (fun j => j < i)).attach,
        M i j.1 * lsolve unit M w j.1) /
      (if unit then 1 else M i i)
termination_by i => i.val
decreasing_by exact (Finset.mem_filter.mp j.2).2

/-- Semantics of `torch.linalg.solve_triangular(M, w, upper=True, left=True)`:
backward substitution reading only the upper triangle of `M`. -/
def usolve {n : ℕ} (unit : Bool) (M : Mat n) (w : Vec n) : Fin n → ℚ
  | i =>
    (w i - ∑ j ∈ (Finset.univ.filter (fun j => i < j)).attach,
        M i j.1 * usolve unit M w j.1) /
      (if unit then 1 else M i i)
termination_by i => n - i.val
decreasing_by exact Nat.sub_lt_sub_left i.isLt (Finset.mem_filter.mp j.2).2

/-- Semantics of `torch.linalg.solve_triangular(M, w, upper=True, left=False)`:
the row vector `z` with `z * M = w`, obtained by transposing the system
(`z * M = w` iff `Mᵀ * z = w`, and `Mᵀ` is lower triangular). -/
def rsolveUpper {n : ℕ} (unit : Bool) (M : Mat n) (w : Vec n) : Vec n :=
  lsolve unit M.transpose w

/-- Semantics of `torch.linalg.solve_triangular(M, w, upper=False, left=False)`:
the row vector `z` with `z * M = w`. -/
def rsolveLower {n : ℕ} (unit : Bool) (M : Mat n) (w : Vec n) : Vec n :=
  usolve unit M.transpose w

/-- The matrix `M` is lower triangular (all entries above the diagonal are 0). -/
def LowerTri {n : ℕ} (M : Mat n) : Prop := ∀ i j : Fin n, i < j → M i j = 0

/-- The matrix `M` is upper triangular (all entries below the diagonal are 0). -/
def UpperTri {n : ℕ} (M : Mat n) : Prop := ∀ i j : Fin n, j < i → M i j = 0

end Torch

/-! # Part 4: `src/layers/stribor/stribor/flows/affine.py`

The function parameter `e : ℚ → ℚ` stands for `torch.exp` and `l1p : ℚ → ℚ`
for `torch.log1p` throughout this part. -/

namespace Stribor

open Torch

/-- The `Affine` flow (`affine.py` lines 11–83): `y = a * x + b` elementwise.
Either `latent_net` is present (it maps the latent vector to `2 * dim`
outputs, split by `chunk(2, dim=-1)` into `log_scale` and `shift`), or the
learned free parameters `log_scale` and `shift` are used. -/
structure Affine (d : ℕ) where
  latent_net : Option (List ℚ → Fin (2 * d) → ℚ)
  log_scale : Fin d → ℚ
  shift : Fin d → ℚ

/-- Embedding of `Affine._get_params`: returns `(log_scale, shift)`.  Calling
the latent branch without a latent vector would raise in Python (the network
cannot be applied to `None`), hence the `Option`. -/
def Affine._get_params {d : ℕ} (A : Affine d) (latent : Option (List ℚ)) :
    Option ((Fin d → ℚ) × (Fin d → ℚ)) :=
  match A.latent_net with
  | none => some (A.log_scale, A.shift)
  | some net =>
    match latent with
    | some l =>
      some (fun i => net l ⟨i.val, by have := i.isLt; omega⟩,
            fun i => net l ⟨d + i.val, by have := i.isLt; omega⟩)
    | none => none

/-- Embedding of `Affine.forward_and_log_det_jacobian` (lines 67–74): with
`reverse=False` computes `y = x * exp(log_scale) + shift`, with `reverse=True`
computes `y = (x - shift) * exp(-log_scale)`; the returned Jacobian term is
`log_scale.expand_as(x).sum(-1)`, i.e. `∑ i, log_scale i`. -/
def Affine.forward_and_log_det_jacobian {d : ℕ} (A : Affine d) (e : ℚ → ℚ)
    (x : Fin d → ℚ) (latent : Option (List ℚ)) (reverse : Bool) :
    Option ((Fin d → ℚ) × ℚ) :=
  match A._get_params latent with
  | none => none
  | some p =>
    let y := if reverse then fun i => (x i - p.2 i) * e (-(p.1 i))
             else fun i => x i * e (p.1 i) + p.2 i
    some (y, ∑ i, p.1 i)

/-- Embedding of `Affine.forward` (lines 55–57). -/
def Affine.forward {d : ℕ} (A : Affine d) (e : ℚ → ℚ) (x : Fin d → ℚ)
    (latent : Option (List ℚ)) : Option (Fin d → ℚ) :=
  (A.forward_and_log_det_jacobian e x latent false).map (fun p => p.1)

/-- Embedding of `Affine.inverse_and_log_det_jacobian` (lines 76–79). -/
def Affine.inverse_and_log_det_jacobian {d : ℕ} (A : Affine d) (e : ℚ → ℚ)
    (y : Fin d → ℚ) (latent : Option (List ℚ)) : Option ((Fin d → ℚ) × ℚ) :=
  (A.forward_and_log_det_jacobian e y latent true).map (fun p => (p.1, -p.2))

/-- Embedding of `Affine.inverse` (lines 59–61). -/
def Affine.inverse {d : ℕ} (A : Affine d) (e : ℚ → ℚ) (y : Fin d → ℚ)
    (latent : Option (List ℚ)) : Option (Fin d → ℚ) :=
  (A.inverse_and_log_det_jacobian e y latent).map (fun p => p.1)

/-- Embedding of `Affine.log_det_jacobian` (lines 63–65): recomputes
`forward_and_log_det_jacobian` and keeps the Jacobian term. -/
def Affine.log_det_jacobian {d : ℕ} (A : Affine d) (e : ℚ → ℚ)
    (x : Fin d → ℚ) (latent : Option (List ℚ)) : Option ℚ :=
  (A.forward_and_log_det_jacobian e x latent false).map (fun p => p.2)

/-- The `AffineLU` flow (`affine.py` lines 86–129): invertible linear layer
`y = x @ (L @ U) + bias` with `W = L @ U` LU-factorised. -/
structure AffineLU (n : ℕ) where
  weight : Mat n
  log_diag : Fin n → ℚ
  bias : Fin n → ℚ

/-- Embedding of the property `AffineLU.L`: `torch.tril(weight, -1) + I`. -/
def AffineLU.L {n : ℕ} (f : AffineLU n) : Mat n :=
  Matrix.of fun i j =>
    (if j < i then f.weight i j else 0) + (if i = j then 1 else 0)

/-- Embedding of the property `AffineLU.U`:
`torch.triu(weight, 1) + diag_ones * log_diag.exp()`. -/
def AffineLU.U {n : ℕ} (f : AffineLU n) (e : ℚ → ℚ) : Mat n :=
  Matrix.of fun i j =>
    (if i < j then f.weight i j else 0) + (if i = j then e (f.log_diag j) else 0)

/-- Embedding of `AffineLU.forward` (lines 116–117): `x @ (L @ U) + bias`. -/
def AffineLU.forward {n : ℕ} (f : AffineLU n) (e : ℚ → ℚ) (x : Vec n) : Vec n :=
  fun j => Matrix.vecMul x (f.L * f.U e) j + f.bias j

/-- Embedding of `AffineLU.inverse` (lines 119–123): subtract the bias, then
two right-sided triangular solves against `U` and `L`. -/
def AffineLU.inverse {n : ℕ} (f : AffineLU n) (e : ℚ → ℚ) (y : Vec n) : Vec n :=
  let x0 : Vec n := fun j => y j - f.bias j
  let x1 := rsolveUpper false (f.U e) x0
  rsolveLower false f.L x1

/-- Embedding of `AffineLU.log_det_jacobian` (lines 125–126):
`log_diag.expand_as(x).sum(-1)`. -/
def AffineLU.log_det_jacobian {n : ℕ} (f : AffineLU n) : ℚ :=
  ∑ i, f.log_diag i

/-- The `MatrixExponential` flow (`affine.py` lines 132–219):
`y = exp(W * t) @ x + b` with `W` kept in the implicit LU-diagonalised form
used by `forward`. -/
structure MatrixExponential (n : ℕ) where
  _weight : Mat n
  diag : Vec n
  bias : Option (Vec n)
  log_time : Bool

/-- Embedding of the `L` component of `MatrixExponential.lu` (lines 171–175):
`torch.tril(_weight, -1) + I` (unit diagonal). -/
def MatrixExponential.Lfac {n : ℕ} (m : MatrixExponential n) : Mat n :=
  Matrix.of fun i j =>
    (if j < i then m._weight i j else 0) + (if i = j then 1 else 0)

/-- Embedding of the `U` component of `MatrixExponential.lu` (lines 171–175):
`torch.triu(_weight) + I` (note `triu` here keeps the diagonal, so the
diagonal of `U` is `_weight i i + 1`). -/
def MatrixExponential.Ufac {n : ℕ} (m : MatrixExponential n) : Mat n :=
  Matrix.of fun i j =>
    (if i ≤ j then m._weight i j else 0) + (if i = j then 1 else 0)

/-- Embedding of `MatrixExponential.get_time` (lines 184–189): broadcasts the
scalar time and applies `log1p(|t|)` when `log_time` is set. -/
def MatrixExponential.get_time {n : ℕ} (m : MatrixExponential n)
    (l1p : ℚ → ℚ) (t : ℚ) : ℚ :=
  if m.log_time then l1p |t| else t

/-- Embedding of `MatrixExponential.forward` (lines 191–207): with the single
(batch-free) vector `x`, `solve_triangular(L, x, upper=False,
unitriangular=True)` then `solve_triangular(U, x, upper=True)` compute
`U⁻¹ L⁻¹ x`; the elementwise factor `exp(diag * t)` is applied; `F.linear(x, U)`
then `F.linear(x, L)` compute `L (U x)`.  With `reverse=True` the time is
negated and the bias is subtracted up front instead of added at the end. -/
def MatrixExponential.forward {n : ℕ} (m : MatrixExponential n)
    (e l1p : ℚ → ℚ) (x : Vec n) (t : ℚ) (reverse : Bool) : Vec n :=
  let t1 := m.get_time l1p t
  let t2 := if reverse then -t1 else t1
  let x0 := if reverse then
      (match m.bias with
       | some b => fun i => x i - b i
       | none => x)
    else x
  let x1 := lsolve true m.Lfac x0
  let x2 := usolve false m.Ufac x1
  let x3 : Vec n := fun i => x2 i * e (m.diag i * t2)
  let x4 := (m.Ufac).mulVec x3
  let x5 := (m.Lfac).mulVec x4
  if reverse = false then
    (match m.bias with
     | some b => fun i => x5 i + b i
     | none => x5)
  else x5

/-- Embedding of `MatrixExponential.inverse` (lines 209–210):
`forward(y, t, reverse=True)`. -/
def MatrixExponential.inverse {n : ℕ} (m : MatrixExponential n)
    (e l1p : ℚ → ℚ) (y : Vec n) (t : ℚ) : Vec n :=
  m.forward e l1p y t true

/-- Embedding of `MatrixExponential.log_det_jacobian` (lines 212–214):
`diag.sum() * t` (after `get_time`). -/
def MatrixExponential.log_det_jacobian {n : ℕ} (m : MatrixExponential n)
    (l1p : ℚ → ℚ) (t : ℚ) : ℚ :=
  (∑ i, m.diag i) * m.get_time l1p t

end Stribor

/-! # Part 5: `src/layers/GNeuralFlow/models/resnet_flow.py`

The learned sub-networks of a block are opaque functions on flat input lists
(the result of `torch.cat([...], -1)`), each returning a `dim`-sized vector.
As constructed in `__init__`, `net` is an `MLP` with input size `dim * 2 + 1`,
`net2` has input size `dim + 1`, `net3` and `xh_net` have input size
`dim * 2`, and `time_net(t)` returns a `dim`-sized embedding of the time. -/

namespace GNeuralFlow

/-- The result of `torch.cat([x, t], -1)` for a `d`-vector `x` and scalar
time `t`: a flat list of `d + 1` rationals. -/
def catT {d : ℕ} (x : Fin d → ℚ) (t : ℚ) : List ℚ :=
  List.ofFn x ++ [t]

/-- The result of `torch.cat([x, h, t], -1)`: a flat list of `2 * d + 1`
rationals. -/
def catHT {d : ℕ} (x h : Fin d → ℚ) (t : ℚ) : List ℚ :=
  List.ofFn x ++ List.ofFn h ++ [t]

/-- One `ResNetFlowBlock` (`resnet_flow.py` lines 10–42). -/
structure ResNetFlowBlock (d : ℕ) where
  invertible : Bool
  net : List ℚ → Fin d → ℚ
  net2 : List ℚ → Fin d → ℚ
  net3 : List ℚ → Fin d → ℚ
  xh_net : List ℚ → Fin d → ℚ
  time_net : ℚ → Fin d → ℚ

/-- Embedding of `ResNetFlowBlock.forward` (lines 26–32): with a conditioning
state `h`, `x + time_net(t) * (net(cat[x,h,t]) * net2(cat[x,t]))` (elementwise
products); without `h`, `x + time_net(t) * net2(cat[x,t])`. -/
def ResNetFlowBlock.forward {d : ℕ} (blk : ResNetFlowBlock d)
    (x : Fin d → ℚ) (h : Option (Fin d → ℚ)) (t : ℚ) : Fin d → ℚ :=
  let tOut := blk.time_net t
  match h with
  | some hv => fun i =>
      x i + tOut i * (blk.net (catHT x hv t) i * blk.net2 (catT x t) i)
  | none => fun i => x i + tOut i * blk.net2 (catT x t) i

/-- One iteration of the fixed-point loop in `ResNetFlowBlock.inverse`
(lines 37–41): `x ← y - time_net(t) * net(cat[x, t])`.  Note the source
applies `self.net` — whose input size is `dim * 2 + 1` — to the
`(dim + 1)`-sized `cat([x, t])`, not `self.net2`. -/
def ResNetFlowBlock.fixedPointStep {d : ℕ} (blk : ResNetFlowBlock d)
    (y : Fin d → ℚ) (t : ℚ) (x : Fin d → ℚ) : Fin d → ℚ :=
  fun i => y i - blk.time_net t i * blk.net (catT x t) i

/-- The fixed-point loop of `ResNetFlowBlock.inverse`, started at `x = y`,
run for the given number of iterations. -/
def ResNetFlowBlock.inverseIter {d : ℕ} (blk : ResNetFlowBlock d)
    (y : Fin d → ℚ) (t : ℚ) : ℕ → Fin d → ℚ
  | 0 => y
  | k + 1 => blk.fixedPointStep y t (blk.inverseIter y t k)

/-- Embedding of `ResNetFlowBlock.inverse` (lines 34–42): raises
`NotImplementedError` (modelled as `none`) unless the block was constructed
invertible; otherwise runs the fixed-point iteration exactly `iterations`
times (the call sites use the default `iterations=100`) and returns the last
iterate — there is no convergence check. -/
def ResNetFlowBlock.inverse {d : ℕ} (blk : ResNetFlowBlock d)
    (y : Fin d → ℚ) (t : ℚ) (iterations : ℕ) : Option (Fin d → ℚ) :=
  if blk.invertible then some (blk.inverseIter y t iterations) else none

/-- The `ResNetFlowNF` model (lines 45–98): a list of blocks. -/
structure ResNetFlowNF (d : ℕ) where
  blocks : List (ResNetFlowBlock d)

/-- Embedding of `ResNetFlowNF.forward` (lines 90–93): apply the blocks in
order, all sharing `h` and `t`. -/
def ResNetFlowNF.forward {d : ℕ} (nf : ResNetFlowNF d)
    (x : Fin d → ℚ) (h : Option (Fin d → ℚ)) (t : ℚ) : Fin d → ℚ :=
  nf.blocks.foldl (fun x blk => blk.forward x h t) x

/-- Embedding of `ResNetFlowNF.inverse` (lines 95–98): apply the blocks'
`inverse` in reversed order with the default `iterations=100` (note there is
no `h` argument). -/
def ResNetFlowNF.inverse {d : ℕ} (nf : ResNetFlowNF d)
    (y : Fin d → ℚ) (t : ℚ) : Option (Fin d → ℚ) :=
  nf.blocks.reverse.foldlM (fun y blk => blk.inverse y t 100) y

end GNeuralFlow

/-! # Part 6: decoder-head layer stacks and the stribor `MLP`

For claim C9 forward evaluation threads an explicit RNG state (`ℕ`): a layer
that consulted the hidden random state would read or advance it.  The layers
actually built by `Pendulum_reg._build_dec_hidden_layers_mean/_var`
(`nn.Linear`, `nn.Tanh`) and by `stribor.net.MLP` (`nn.Linear` and activation
modules) are deterministic `torch` modules: their forward semantics neither
read nor advance the RNG. -/

namespace NetLayers

/-- A layer of the stacks in question: `nn.Linear` with weight rows `W` and
bias `b`, or an elementwise activation module (e.g. `nn.Tanh`, modelled by an
opaque scalar function). -/
inductive TLayer where
  | linear (W : List (List ℚ)) (b : List ℚ)
  | act (f : ℚ → ℚ)

/-- Dot product of a weight row with the input vector. -/
def dotRow (r v : List ℚ) : ℚ :=
  (r.zip v).foldl (fun a p => a + p.1 * p.2) 0

/-- Forward semantics of one layer, threading the RNG state: `nn.Linear`
computes `W x + b`, an activation module maps its function elementwise; both
are deterministic, so the RNG passes through untouched. -/
def evalLayer : TLayer → List ℚ × ℕ → List ℚ × ℕ
  | .linear W b, p => ((W.map (fun r => dotRow r p.1)).zipWith (fun a c => a + c) b, p.2)
  | .act f, p => (p.1.map f, p.2)

/-- Sequential forward pass (`nn.Sequential` / iterating an `nn.ModuleList`). -/
def runLayers (ls : List TLayer) (v : List ℚ) (g : ℕ) : List ℚ × ℕ :=
  ls.foldl (fun p l => evalLayer l p) (v, g)

/-- Embedding of `Pendulum_reg._build_dec_hidden_layers_mean`
(`src/layers/CRU/models.py` lines 185–189): `nn.Linear(2 * lod, 30)` followed
by `nn.Tanh()`.  `W`/`b` are the learned parameters (shape `30 × (2·lod)` and
`30`), `tanh` the scalar function computed by `nn.Tanh`. -/
def pendulumRegDecMeanLayers (W : List (List ℚ)) (b : List ℚ)
    (tanh : ℚ → ℚ) : List TLayer :=
  [.linear W b, .act tanh]

/-- Embedding of `Pendulum_reg._build_dec_hidden_layers_var` (lines 191–195):
`nn.Linear(3 * lod, 30)` followed by `nn.Tanh()`. -/
def pendulumRegDecVarLayers (W : List (List ℚ)) (b : List ℚ)
    (tanh : ℚ → ℚ) : List TLayer :=
  [.linear W b, .act tanh]

/-- Parameters of one `nn.Linear` inside an `MLP`. -/
structure Lin where
  W : List (List ℚ)
  b : List ℚ

/-- The construction-time mutation `layers[-1].bias.data.fill_(0.0)`
(`mlp.py` line 43) applied to the last linear layer's parameters. -/
def zeroBias (l : Lin) : Lin := ⟨l.W, l.b.map (fun _ => 0)⟩

/-- Applies `zeroBias` to the last element of the list of linear layers. -/
def zeroLast : List Lin → List Lin
  | [] => []
  | [l] => [zeroBias l]
  | l :: ls => l :: zeroLast ls

/-- The `activation, nn.Linear(...)` pairs appended by the loop in
`MLP.__init__` (`mlp.py` lines 39–42). -/
def interleaveLins (act : ℚ → ℚ) : List Lin → List TLayer
  | [] => []
  | l :: ls => TLayer.act act :: TLayer.linear l.W l.b :: interleaveLins act ls

/-- The layer list assembled by `MLP.__init__` (`mlp.py` lines 27–46): the
first `nn.Linear`, then alternating activation/`nn.Linear` for the remaining
dimensions, the last linear's bias zeroed, and the optional final activation
appended.  `lins` are the parameter pairs of the linear layers in order (their
shapes are determined by `in_dim`, `hidden_dims` and `out_dim`). -/
def mlpNet (act : ℚ → ℚ) (finalAct : Option (ℚ → ℚ)) (lins : List Lin) :
    List TLayer :=
  (match zeroLast lins with
   | [] => []
   | l0 :: rest => TLayer.linear l0.W l0.b :: interleaveLins act rest) ++
  (match finalAct with
   | some f => [TLayer.act f]
   | none => [])

/-- A stribor `MLP` is its assembled `nn.Sequential` layer list. -/
structure MLP where
  net : List TLayer

/-- Embedding of `MLP.forward` (`mlp.py` lines 48–49): `return self.net(x)`. -/
def MLP.forward (m : MLP) (x : List ℚ) (g : ℕ) : List ℚ × ℕ :=
  runLayers m.net x g

end NetLayers

/-! # Part 7: concrete instances used by counterexamples and witnesses -/

/-- A concrete invertible `ResNetFlowBlock` with `dim = 1`: `net` is the
constant-`0` network, `net2` the constant-`1` network, `time_net` the
constant-`1` embedding (all realisable as MLP parameter settings: zero
weights with the corresponding output bias). -/
def blkC1 : GNeuralFlow.ResNetFlowBlock 1 where
  invertible := true
  net := fun _ _ => 0
  net2 := fun _ _ => 1
  net3 := fun _ _ => 0
  xh_net := fun _ _ => 0
  time_net := fun _ _ => 1

/-- A one-block `ResNetFlowNF` built from `blkC1`. -/
def nfC1 : GNeuralFlow.ResNetFlowNF 1 where
  blocks := [blkC1]

/-- A concrete `MatrixExponential` with `dim = 1`, zero weight and zero
`diag`, but a nonzero bias (`bias=True` at construction). -/
def mexpC5 : Stribor.MatrixExponential 1 where
  _weight := Matrix.of fun _ _ => 0
  diag := fun _ => 0
  bias := some (fun _ => 1)
  log_time := false

/-- A concrete bias-free `MatrixExponential` with `dim = 1` (the construction
default `bias=False`). -/
def mexpC5w : Stribor.MatrixExponential 1 where
  _weight := Matrix.of fun _ _ => 0
  diag := fun _ => 0
  bias := none
  log_time := false

/-- A concrete `Affine` with `dim = 1`, free parameters `log_scale = 2`,
`shift = 3` (no latent network). -/
def affC7 : Stribor.Affine 1 where
  latent_net := none
  log_scale := fun _ => 2
  shift := fun _ => 3

/-- A concrete base-class transform over `ℚ`: shift by one. -/
def t1C3 : Stribor.Transform ℚ :=
  Stribor.Transform.ofBase (fun x => x + 1) (fun y => y - 1) (fun _ _ => 3)

/-- A concrete base-class transform over `ℚ`: scale by two. -/
def t2C3 : Stribor.Transform ℚ :=
  Stribor.Transform.ofBase (fun x => 2 * x) (fun y => y / 2) (fun _ _ => 5)

/-- A concrete two-transform `NormalizingFlow` over `ℚ` with a trivial base
distribution. -/
def nfC3 : Stribor.NormalizingFlow ℚ where
  baseSample := fun _ g => (0, g)
  baseRSample := fun _ g => (0, g)
  transforms := [t1C3, t2C3]

/-- A concrete `Affine` with `dim = 1`, free parameters `log_scale = 4`,
`shift = 7`. -/
def affC6 : Stribor.Affine 1 where
  latent_net := none
  log_scale := fun _ => 4
  shift := fun _ => 7

/-- A concrete `AffineLU` with `dim = 1`: zero strict triangles,
`log_diag = 0`, `bias = 2`. -/
def luC6 : Stribor.AffineLU 1 where
  weight := Matrix.of fun _ _ => 0
  log_diag := fun _ => 0
  bias := fun _ => 2

/-- A concrete `MatrixExponential` with `dim = 1`, `diag = 3`, a bias of `2`
and `log_time=True`. -/
def mexpC6 : Stribor.MatrixExponential 1 where
  _weight := Matrix.of fun _ _ => 0
  diag := fun _ => 3
  bias := some (fun _ => 2)
  log_time := true

/-! # Theorems

First the generic correctness lemmas for the triangular-solve semantics, then
the per-claim theorems. -/

namespace Torch

theorem lsolve_spec {n : ℕ} (unit : Bool) (M : Mat n) (w : Vec n) (i : Fin n) :
    lsolve unit M w i =
      (w i - ∑ j ∈ Finset.univ.filter (fun j => j < i), M i j * lsolve unit M w j) /
        (if unit then 1 else M i i) := by
  rw [lsolve,
    Finset.sum_attach (Finset.univ.filter (fun j => j < i))
      (fun j => M i j * lsolve unit M w j)]

theorem usolve_spec {n : ℕ} (unit : Bool) (M : Mat n) (w : Vec n) (i : Fin n) :
    usolve unit M w i =
      (w i - ∑ j ∈ Finset.univ.filter (fun j => i < j), M i j * usolve unit M w j) /
        (if unit then 1 else M i i) := by
  rw [usolve,
    Finset.sum_attach (Finset.univ.filter (fun j => i < j))
      (fun j => M i j * usolve unit M w j)]

theorem lower_sum_split {n : ℕ} (M : Mat n) (z : Vec n) (i : Fin n)
    (hM : LowerTri M) :
    ∑ j, M i j * z j =
      (∑ j ∈ Finset.univ.filter (fun j => j < i), M i j * z j) + M i i * z i := by
  rw [← Finset.sum_filter_add_sum_filter_not Finset.univ (fun j => j < i)
    (fun j => M i j * z j)]
  congr 1
  refine Finset.sum_eq_single_of_mem i (by simp) ?_
  intro b hb hbne
  have hib : i < b := lt_of_le_of_ne (not_lt.mp (Finset.mem_filter.mp hb).2) (Ne.symm hbne)
  rw [hM i b hib, zero_mul]

theorem upper_sum_split {n : ℕ} (M : Mat n) (z : Vec n) (i : Fin n)
    (hM : UpperTri M) :
    ∑ j, M i j * z j =
      (∑ j ∈ Finset.univ.filter (fun j => i < j), M i j * z j) + M i i * z i := by
  rw [← Finset.sum_filter_add_sum_filter_not Finset.univ (fun j => i < j)
    (fun j => M i j * z j)]
  congr 1
  refine Finset.sum_eq_single_of_mem i (by simp) ?_
  intro b hb hbne
  have hbi : b < i := lt_of_le_of_ne (not_lt.mp (Finset.mem_filter.mp hb).2) hbne
  rw [hM i b hbi, zero_mul]

theorem mulVec_lsolve {n : ℕ} (unit : Bool) (M : Mat n) (w : Vec n)
    (hM : LowerTri M) (hd : ∀ i, M i i ≠ 0)
    (hu : unit = true → ∀ i, M i i = 1) :
    M.mulVec (lsolve unit M w) = w := by
  funext i
  have hm : M.mulVec (lsolve unit M w) i = ∑ j, M i j * lsolve unit M w j := by
    simp [Matrix.mulVec, Matrix.dotProduct]
  rw [hm, lower_sum_split M _ i hM, lsolve_spec]
  rcases unit with _ | _
  · simp only [Bool.false_eq_true, if_false]
    rw [mul_comm (M i i) _, div_mul_cancel₀ _ (hd i)]
    ring
  · rw [hu rfl i]
    simp

theorem mulVec_usolve {n : ℕ} (unit : Bool) (M : Mat n) (w : Vec n)
    (hM : UpperTri M) (hd : ∀ i, M i i ≠ 0)
    (hu : unit = true → ∀ i, M i i = 1) :
    M.mulVec (usolve unit M w) = w := by
  funext i
  have hm : M.mulVec (usolve unit M w) i = ∑ j, M i j * usolve unit M w j := by
    simp [Matrix.mulVec, Matrix.dotProduct]
  rw [hm, upper_sum_split M _ i hM, usolve_spec]
  rcases unit with _ | _
  · simp only [Bool.false_eq_true, if_false]
    rw [mul_comm (M i i) _, div_mul_cancel₀ _ (hd i)]
    ring
  · rw [hu rfl i]
    simp

theorem lsolve_mulVec {n : ℕ} (unit : Bool) (M : Mat n) (z : Vec n)
    (hM : LowerTri M) (hd : ∀ i, M i i ≠ 0)
    (hu : unit = true → ∀ i, M i i = 1) :
    lsolve unit M (M.mulVec z) = z := by
  suffices H : ∀ k : ℕ, ∀ i : Fin n, i.val < k → lsolve unit M (M.mulVec z) i = z i by
    exact funext fun i => H (i.val + 1) i (Nat.lt_succ_self _)
  intro k
  induction k with
  | zero => exact fun i h => absurd h (Nat.not_lt_zero _)
  | succ k ih =>
    intro i hik
    have hmv : M.mulVec z i =
        (∑ j ∈ Finset.univ.filter (fun j => j < i), M i j * z j) + M i i * z i := by
      have h0 : M.mulVec z i = ∑ j, M i j * z j := by
        simp [Matrix.mulVec, Matrix.dotProduct]
      rw [h0, lower_sum_split M z i hM]
    rw [lsolve_spec, hmv]
    have hsum : ∑ j ∈ Finset.univ.filter (fun j => j < i), M i j * lsolve unit M (M.mulVec z) j
        = ∑ j ∈ Finset.univ.filter (fun j => j < i), M i j * z j := by
      refine Finset.sum_congr rfl ?_
      intro j hj
      have hji : j < i := (Finset.mem_filter.mp hj).2
      rw [ih j (by omega)]
    rw [hsum]
    have harith : ∀ S v : ℚ, S + v - S = v := fun S v => by ring
    rw [harith]
    rcases unit with _ | _
    · simp only [Bool.false_eq_true, if_false]
      exact mul_div_cancel_left₀ _ (hd i)
    · rw [hu rfl i]
      simp

theorem usolve_mulVec {n : ℕ} (unit : Bool) (M : Mat n) (z : Vec n)
    (hM : UpperTri M) (hd : ∀ i, M i i ≠ 0)
    (hu : unit = true → ∀ i, M i i = 1) :
    usolve unit M (M.mulVec z) = z := by
  suffices H : ∀ k : ℕ, ∀ i : Fin n, n - i.val ≤ k → usolve unit M (M.mulVec z) i = z i by
    exact funext fun i => H n i (Nat.sub_le _ _)
  intro k
  induction k with
  | zero => exact fun i h => absurd h (by have := i.isLt; omega)
  | succ k ih =>
    intro i hik
    have hmv : M.mulVec z i =
        (∑ j ∈ Finset.univ.filter (fun j => i < j), M i j * z j) + M i i * z i := by
      have h0 : M.mulVec z i = ∑ j, M i j * z j := by
        simp [Matrix.mulVec, Matrix.dotProduct]
      rw [h0, upper_sum_split M z i hM]
    rw [usolve_spec, hmv]
    have hsum : ∑ j ∈ Finset.univ.filter (fun j => i < j), M i j * usolve unit M (M.mulVec z) j
        = ∑ j ∈ Finset.univ.filter (fun j => i < j), M i j * z j := by
      refine Finset.sum_congr rfl ?_
      intro j hj
      have hij : i < j := (Finset.mem_filter.mp hj).2
      have hjn := j.isLt
      have hij2 : i.val < j.val := hij
      rw [ih j (by omega)]
    rw [hsum]
    have harith : ∀ S v : ℚ, S + v - S = v := fun S v => by ring
    rw [harith]
    rcases unit with _ | _
    · simp only [Bool.false_eq_true, if_false]
      exact mul_div_cancel_left₀ _ (hd i)
    · rw [hu rfl i]
      simp

theorem lowerTri_transpose {n : ℕ} {M : Mat n} (h : UpperTri M) :
    LowerTri M.transpose := by
  intro i j hij
  exact h j i hij

theorem upperTri_transpose {n : ℕ} {M : Mat n} (h : LowerTri M) :
    UpperTri M.transpose := by
  intro i j hji
  exact h j i hji

end Torch

namespace NetLayers

theorem runLayers_deterministic (ls : List TLayer) (v : List ℚ) (g g' : ℕ) :
    (runLayers ls v g).2 = g ∧ (runLayers ls v g).1 = (runLayers ls v g').1 := by
  induction ls generalizing v with
  | nil => exact ⟨rfl, rfl⟩
  | cons l ls ih =>
    rcases l with ⟨W, b⟩ | f
    · exact ih _
    · exact ih _

end NetLayers

/-- Claim C10: `NormalizingFlow.rsample` behaves identically to
`NormalizingFlow.sample` with its default arguments, and it never invokes the
base distribution's reparameterised `rsample` draw: its result is unchanged
under replacing `base_dist.rsample` by any other draw procedure. -/
theorem rsample_equals_sample {α : Type} (nf : Stribor.NormalizingFlow α)
    (n g : ℕ) (r' : ℕ → ℕ → α × ℕ) :
    nf.rsample n g = nf.sample n false g ∧
    Stribor.NormalizingFlow.rsample
      { baseSample := nf.baseSample, baseRSample := r',
        transforms := nf.transforms } n g = nf.rsample n g := by
  exact ⟨rfl, rfl⟩

/-- Claim C9: the regression-task decoder heads built by
`Pendulum_reg._build_dec_hidden_layers_mean` / `_build_dec_hidden_layers_var`
and any stribor `MLP` are deterministic: the forward pass leaves the RNG
state untouched and its output does not depend on the RNG state, so two
evaluations on the same input (e.g. a zero latent state) produce identical
outputs. -/
theorem decoder_head_deterministic (W : List (List ℚ)) (b : List ℚ)
    (tanh : ℚ → ℚ) (m : NetLayers.MLP) (v : List ℚ) (g g' : ℕ) :
    ((NetLayers.runLayers (NetLayers.pendulumRegDecMeanLayers W b tanh) v g).2 = g ∧
      (NetLayers.runLayers (NetLayers.pendulumRegDecMeanLayers W b tanh) v g).1 =
        (NetLayers.runLayers (NetLayers.pendulumRegDecMeanLayers W b tanh) v g').1) ∧
    ((NetLayers.runLayers (NetLayers.pendulumRegDecVarLayers W b tanh) v g).2 = g ∧
      (NetLayers.runLayers (NetLayers.pendulumRegDecVarLayers W b tanh) v g).1 =
        (NetLayers.runLayers (NetLayers.pendulumRegDecVarLayers W b tanh) v g').1) ∧
    ((m.forward v g).2 = g ∧ (m.forward v g).1 = (m.forward v g').1) := by
  exact ⟨NetLayers.runLayers_deterministic _ v g g',
    NetLayers.runLayers_deterministic _ v g g',
    NetLayers.runLayers_deterministic m.net v g g'⟩

/-- Claim C8: `load_model` instantiates the model variant and target
dimensionality determined by the dataset/task configuration: `physionet` →
`Physionet_USHCN` with `target_dim=37`; `ushcn` → `Physionet_USHCN` with
`target_dim=5`; `pendulum`/`regression` → `Pendulum_reg` with `target_dim=2`;
`pendulum`/`interpolation` → `Pendulum` with `target_dim=(1,24,24)` and
Bernoulli output. -/
theorem load_model_variant_selection (cfg : CRUModels.Configs) :
    (cfg.dataset = "physionet" →
      CRUModels.load_model cfg =
        .ok ⟨.Physionet_USHCN, .vec 37, cfg.latent_state_dim, none, none⟩) ∧
    (cfg.dataset = "ushcn" →
      CRUModels.load_model cfg =
        .ok ⟨.Physionet_USHCN, .vec 5, cfg.latent_state_dim, none, none⟩) ∧
    (cfg.dataset = "pendulum" → cfg.task = "regression" →
      CRUModels.load_model cfg =
        .ok ⟨.Pendulum_reg, .vec 2, cfg.latent_state_dim, some false, none⟩) ∧
    (cfg.dataset = "pendulum" → cfg.task = "interpolation" →
      CRUModels.load_model cfg =
        .ok ⟨.Pendulum, .img 1 24 24, cfg.latent_state_dim, some true, some true⟩) := by
  refine ⟨fun h1 => ?_, fun h2 => ?_, fun h3 h4 => ?_, fun h5 h6 => ?_⟩ <;>
    simp_all [CRUModels.load_model]

/-- Witness for C8 at concrete configurations. -/
theorem load_model_variant_selection_witness :
    CRUModels.load_model ⟨"physionet", "extrapolation", 30, 50⟩ =
      .ok ⟨.Physionet_USHCN, .vec 37, 30, none, none⟩ ∧
    CRUModels.load_model ⟨"ushcn", "extrapolation", 30, 50⟩ =
      .ok ⟨.Physionet_USHCN, .vec 5, 30, none, none⟩ ∧
    CRUModels.load_model ⟨"pendulum", "regression", 30, 50⟩ =
      .ok ⟨.Pendulum_reg, .vec 2, 30, some false, none⟩ ∧
    CRUModels.load_model ⟨"pendulum", "interpolation", 30, 50⟩ =
      .ok ⟨.Pendulum, .img 1 24 24, 30, some true, some true⟩ :=
  ⟨(load_model_variant_selection _).1 rfl,
   (load_model_variant_selection _).2.1 rfl,
   (load_model_variant_selection _).2.2.1 rfl rfl,
   (load_model_variant_selection _).2.2.2 rfl rfl⟩

/-- Counterexample to claim C2 as stated: for the unsupported dataset
`"foobar"`, `load_model` does fail before any forward pass, but with an
unbound-local-variable error whose message does not name the invalid
option (the string `"foobar"` does not occur in it). -/
theorem load_model_error_does_not_name_option :
    CRUModels.load_model ⟨"foobar", "regression", 30, 50⟩ =
      .error CRUModels.unboundLocalMsg ∧
    CRUModels.occursIn "foobar".data CRUModels.unboundLocalMsg.data = false := by
  exact ⟨rfl, rfl⟩

/-- Claim C2 as amended: every unsupported dataset/task combination makes
`load_model` fail at model-construction time, before any forward pass — an
unknown dataset falls through every branch and hits the unbound local
`model` at `return model`, and a pendulum task other than regression or
interpolation raises `Exception('Task not available for Pendulum data')` —
but the error does not name the invalid option. -/
theorem load_model_fails_fast (cfg : CRUModels.Configs) :
    (cfg.dataset ≠ "pendulum" → cfg.dataset ≠ "ushcn" → cfg.dataset ≠ "physionet" →
      CRUModels.load_model cfg = .error CRUModels.unboundLocalMsg) ∧
    (cfg.dataset = "pendulum" → cfg.task ≠ "regression" → cfg.task ≠ "interpolation" →
      CRUModels.load_model cfg = .error CRUModels.pendulumTaskMsg) := by
  constructor
  · intro h1 h2 h3
    simp [CRUModels.load_model, h1, h2, h3]
  · intro h1 h2 h3
    simp [CRUModels.load_model, h1, h2, h3]

/-- Witness for the amended C2 at concrete invalid configurations. -/
theorem load_model_fails_fast_witness :
    CRUModels.load_model ⟨"foobar", "regression", 30, 50⟩ =
      .error CRUModels.unboundLocalMsg ∧
    CRUModels.load_model ⟨"pendulum", "extrapolation", 30, 50⟩ =
      .error CRUModels.pendulumTaskMsg :=
  ⟨(load_model_fails_fast ⟨"foobar", "regression", 30, 50⟩).1
      (by decide) (by decide) (by decide),
   (load_model_fails_fast ⟨"pendulum", "extrapolation", 30, 50⟩).2
      rfl (by decide) (by decide)⟩

/-- Claim C7: the log-determinant component returned by
`forward_and_log_det_jacobian(x)` equals `log_det_jacobian(x, forward(x))`
computed independently — for any transform using the base-class
implementation, and for `Affine`, where both equal the sum over the last
dimension of `log_scale`. -/
theorem forward_ldj_consistency :
    (∀ (α : Type) (f i : α → α) (l : α → α → ℚ) (x : α),
      ((Stribor.Transform.ofBase f i l).fwdLdj x).2 =
        (Stribor.Transform.ofBase f i l).ldj x
          ((Stribor.Transform.ofBase f i l).fwd x)) ∧
    (∀ (d : ℕ) (A : Stribor.Affine d) (e : ℚ → ℚ) (x : Fin d → ℚ)
      (latent : Option (List ℚ)) (s b : Fin d → ℚ),
      A._get_params latent = some (s, b) →
      A.forward_and_log_det_jacobian e x latent false =
        some (fun i => x i * e (s i) + b i, ∑ i, s i) ∧
      A.log_det_jacobian e x latent = some (∑ i, s i)) := by
  constructor
  · intro α f i l x
    rfl
  · intro d A e x latent s b h
    constructor
    · simp [Stribor.Affine.forward_and_log_det_jacobian, h]
    · simp [Stribor.Affine.log_det_jacobian,
        Stribor.Affine.forward_and_log_det_jacobian, h]

/-- Witness for C7: the base-class part at a concrete transform over `ℚ` and
the `Affine` part at a concrete parameterisation. -/
theorem forward_ldj_consistency_witness :
    ((Stribor.Transform.ofBase (fun x : ℚ => x + 1) (fun y => y - 1)
        (fun _ _ => 3)).fwdLdj 7).2 =
      (Stribor.Transform.ofBase (fun x : ℚ => x + 1) (fun y => y - 1)
        (fun _ _ => 3)).ldj 7
        ((Stribor.Transform.ofBase (fun x : ℚ => x + 1) (fun y => y - 1)
          (fun _ _ => 3)).fwd 7) ∧
    (affC7.forward_and_log_det_jacobian (fun _ => 1) (fun _ => 5) none false =
      some (fun i => (fun _ : Fin 1 => (5 : ℚ)) i * (fun _ : Fin 1 => (1 : ℚ)) i
        + (fun _ : Fin 1 => (3 : ℚ)) i, ∑ _i : Fin 1, (2 : ℚ)) ∧
     affC7.log_det_jacobian (fun _ => 1) (fun _ => 5) none =
      some (∑ _i : Fin 1, (2 : ℚ))) := by
  refine ⟨forward_ldj_consistency.1 ℚ _ _ _ 7, ?_⟩
  have h := forward_ldj_consistency.2 1 affC7
    (fun _ => 1) (fun _ => 5) none (fun _ => 2) (fun _ => 3) rfl
  exact h

namespace GNeuralFlow

theorem inverseIter_eq_iterate {d : ℕ} (blk : ResNetFlowBlock d)
    (y : Fin d → ℚ) (t : ℚ) (k : ℕ) :
    blk.inverseIter y t k = (blk.fixedPointStep y t)^[k] y := by
  induction k with
  | zero => rfl
  | succ k ih =>
    rw [Function.iterate_succ_apply']
    show blk.fixedPointStep y t (blk.inverseIter y t k) = _
    rw [ih]

end GNeuralFlow

/-- Claim C4: for every input, `ResNetFlowBlock.inverse` on an invertible
block performs exactly the requested number of fixed-point iterations of the
residual step (100 at every call site) and then returns that iterate: it is a
total function with no convergence check — the iteration count never depends
on the values computed. -/
theorem resnet_block_inverse_fixed_iteration {d : ℕ}
    (blk : GNeuralFlow.ResNetFlowBlock d) (y : Fin d → ℚ) (t : ℚ) (its : ℕ)
    (h : blk.invertible = true) :
    blk.inverse y t its = some ((blk.fixedPointStep y t)^[its] y) := by
  rw [GNeuralFlow.ResNetFlowBlock.inverse, if_pos h,
    GNeuralFlow.inverseIter_eq_iterate]

/-- Witness for C4: the concrete invertible block `blkC1` at 100 iterations. -/
theorem resnet_block_inverse_fixed_iteration_witness :
    blkC1.invertible = true ∧
    blkC1.inverse (fun _ => 4) (1/2) 100 =
      some ((blkC1.fixedPointStep (fun _ => 4) (1/2))^[100] (fun _ => 4)) :=
  ⟨rfl, resnet_block_inverse_fixed_iteration blkC1 (fun _ => 4) (1/2) 100 rfl⟩

/-- Claim C1 fails on the code (`ResNetFlowBlock.inverse` fixed-point-iterates
against `self.net` on `cat([x, t])` although `forward` added
`time_net(t) * net2(cat([x, t]))`, and `self.net` expects `2*dim+1` inputs):
for the concrete one-block flow `nfC1` with `x = 0`, `h = None`, `t = 1/2`,
the forward output is `1` and the inverse of it is again `1`, so the round
trip misses `x` by `1`, far beyond the `1e-5` tolerance. -/
theorem resnetflow_inverse_forward_roundtrip_fails :
    GNeuralFlow.ResNetFlowNF.forward nfC1 (fun _ => 0) none (1/2) =
      (fun _ => 1) ∧
    GNeuralFlow.ResNetFlowNF.inverse nfC1
        (GNeuralFlow.ResNetFlowNF.forward nfC1 (fun _ => 0) none (1/2)) (1/2) =
      some (fun _ => 1) ∧
    ¬ (|(1 : ℚ) - 0| ≤ 1 / 100000) := by
  have hfwd : GNeuralFlow.ResNetFlowNF.forward nfC1 (fun _ => 0) none (1/2) =
      (fun _ => (1 : ℚ)) := by
    funext i
    simp [nfC1, blkC1, GNeuralFlow.ResNetFlowNF.forward,
      GNeuralFlow.ResNetFlowBlock.forward]
  have hstep : ∀ x y : Fin 1 → ℚ, blkC1.fixedPointStep y 2⁻¹ x = y := by
    intro x y
    funext i
    simp [blkC1, GNeuralFlow.ResNetFlowBlock.fixedPointStep]
  have hiter : ∀ (k : ℕ) (y : Fin 1 → ℚ), blkC1.inverseIter y 2⁻¹ k = y := by
    intro k
    induction k with
    | zero => intro y; rfl
    | succ k ih =>
      intro y
      show blkC1.fixedPointStep y 2⁻¹ (blkC1.inverseIter y 2⁻¹ k) = y
      rw [hstep]
  have hinv : ∀ y : Fin 1 → ℚ,
      GNeuralFlow.ResNetFlowNF.inverse nfC1 y (1/2) = some y := by
    intro y
    have hb : blkC1.invertible = true := rfl
    simp [nfC1, GNeuralFlow.ResNetFlowNF.inverse,
      GNeuralFlow.ResNetFlowBlock.inverse, hb, hiter]
  refine ⟨hfwd, ?_, by norm_num⟩
  rw [hfwd, hinv]

namespace Stribor

theorem fwdLdj_foldl {α : Type} (ts : List (Transform α)) (x : α) (c : ℚ)
    (hc : ∀ f ∈ ts, f.Coherent) :
    ts.foldl (fun p f => let q := f.fwdLdj p.1; (q.1, p.2 + q.2)) (x, c) =
      (applyFwd ts x, c + ldjSumFwd ts x) := by
  induction ts generalizing x c with
  | nil => simp [applyFwd, ldjSumFwd]
  | cons f fs ih =>
    have hf := (hc f (List.mem_cons_self f fs)).1
    have hrest : ∀ g ∈ fs, g.Coherent := fun g hg => hc g (List.mem_cons_of_mem f hg)
    rw [List.foldl_cons]
    simp only [hf x]
    rw [ih (f.fwd x) (c + f.ldj x (f.fwd x)) hrest]
    simp [applyFwd, ldjSumFwd, add_assoc]

theorem invLdj_foldl {α : Type} (rs : List (Transform α)) (y : α) (c : ℚ)
    (hc : ∀ f ∈ rs, f.Coherent) :
    rs.foldl (fun p f => let q := f.invLdj p.1; (q.1, p.2 + q.2)) (y, c) =
      (applyRev rs y, c - ldjSumRev rs y) := by
  induction rs generalizing y c with
  | nil => simp [applyRev, ldjSumRev]
  | cons f fs ih =>
    have hf := (hc f (List.mem_cons_self f fs)).2.1
    have hrest : ∀ g ∈ fs, g.Coherent := fun g hg => hc g (List.mem_cons_of_mem f hg)
    rw [List.foldl_cons]
    simp only [hf y]
    rw [ih (f.inv y) (c + -(f.ldj (f.inv y) y)) hrest]
    simp [applyRev, ldjSumRev]
    ring

theorem ldjSumRev_append {α : Type} (as bs : List (Transform α)) (y : α) :
    ldjSumRev (as ++ bs) y = ldjSumRev as y + ldjSumRev bs (applyRev as y) := by
  induction as generalizing y with
  | nil => simp [ldjSumRev, applyRev]
  | cons f fs ih =>
    simp only [List.cons_append, ldjSumRev]
    rw [List.append_eq, ih (f.inv y)]
    simp [applyRev, add_assoc]

theorem applyRev_append {α : Type} (as bs : List (Transform α)) (y : α) :
    applyRev (as ++ bs) y = applyRev bs (applyRev as y) := by
  simp [applyRev, List.foldl_append]

theorem roundtrip_ldj {α : Type} (ts : List (Transform α)) (x : α)
    (hc : ∀ f ∈ ts, f.Coherent) :
    applyRev ts.reverse (applyFwd ts x) = x ∧
    ldjSumRev ts.reverse (applyFwd ts x) = ldjSumFwd ts x := by
  induction ts generalizing x with
  | nil => exact ⟨rfl, rfl⟩
  | cons f fs ih =>
    have hf := hc f (List.mem_cons_self f fs)
    have hrest : ∀ g ∈ fs, g.Coherent := fun g hg => hc g (List.mem_cons_of_mem f hg)
    have hfwd : applyFwd (f :: fs) x = applyFwd fs (f.fwd x) := by
      simp [applyFwd]
    have hIH := ih (f.fwd x) hrest
    constructor
    · rw [hfwd, List.reverse_cons, applyRev_append, hIH.1]
      show f.inv (f.fwd x) = x
      exact hf.2.2 x
    · rw [hfwd, List.reverse_cons, ldjSumRev_append, hIH.1, hIH.2]
      show ldjSumFwd fs (f.fwd x) + (f.ldj (f.inv (f.fwd x)) (f.fwd x) + 0) =
        ldjSumFwd (f :: fs) x
      rw [hf.2.2 x]
      simp [ldjSumFwd]
      ring

end Stribor

/-- Claim C3: `NormalizingFlow.forward_and_log_det_jacobian` applies the
transforms in forward (list) order and returns the sum of the per-transform
log-determinants accumulated in that order; and
`inverse_and_log_det_jacobian` traverses the transforms in reverse order and
returns the negated accumulated log-determinant, so that the two terms cancel
on a round trip. -/
theorem normalizing_flow_ldj_accumulation {α : Type}
    (nf : Stribor.NormalizingFlow α) (x y : α)
    (hc : ∀ f ∈ nf.transforms, f.Coherent) :
    nf.forward_and_log_det_jacobian x =
      (nf.forward x, Stribor.ldjSumFwd nf.transforms x) ∧
    nf.inverse_and_log_det_jacobian y =
      (nf.inverse y, -(Stribor.ldjSumRev nf.transforms.reverse y)) ∧
    (nf.inverse_and_log_det_jacobian (nf.forward_and_log_det_jacobian x).1).1 = x ∧
    (nf.inverse_and_log_det_jacobian (nf.forward_and_log_det_jacobian x).1).2 =
      -((nf.forward_and_log_det_jacobian x).2) := by
  have hc' : ∀ f ∈ nf.transforms.reverse, f.Coherent :=
    fun f hf => hc f (List.mem_reverse.mp hf)
  have h1 : nf.forward_and_log_det_jacobian x =
      (Stribor.applyFwd nf.transforms x, Stribor.ldjSumFwd nf.transforms x) := by
    rw [Stribor.NormalizingFlow.forward_and_log_det_jacobian,
      Stribor.fwdLdj_foldl nf.transforms x 0 hc, zero_add]
  have h2 : ∀ z : α, nf.inverse_and_log_det_jacobian z =
      (Stribor.applyRev nf.transforms.reverse z,
        -(Stribor.ldjSumRev nf.transforms.reverse z)) := by
    intro z
    rw [Stribor.NormalizingFlow.inverse_and_log_det_jacobian,
      Stribor.invLdj_foldl nf.transforms.reverse z 0 hc', zero_sub]
  have hrt := Stribor.roundtrip_ldj nf.transforms x hc
  refine ⟨h1, h2 y, ?_, ?_⟩
  · rw [h1, h2]
    exact hrt.1
  · rw [h1, h2]
    simp only [neg_inj]
    exact hrt.2

/-- Witness for C3: the concrete two-transform flow `nfC3` at `x = 7`,
`y = 9`. -/
theorem normalizing_flow_ldj_accumulation_witness :
    nfC3.forward_and_log_det_jacobian 7 =
      (nfC3.forward 7, Stribor.ldjSumFwd nfC3.transforms 7) ∧
    nfC3.inverse_and_log_det_jacobian 9 =
      (nfC3.inverse 9, -(Stribor.ldjSumRev nfC3.transforms.reverse 9)) ∧
    (nfC3.inverse_and_log_det_jacobian (nfC3.forward_and_log_det_jacobian 7).1).1 = 7 ∧
    (nfC3.inverse_and_log_det_jacobian (nfC3.forward_and_log_det_jacobian 7).1).2 =
      -((nfC3.forward_and_log_det_jacobian 7).2) := by
  refine normalizing_flow_ldj_accumulation nfC3 7 9 ?_
  intro f hf
  have hf' : f = t1C3 ∨ f = t2C3 := by
    simpa [nfC3] using hf
  rcases hf' with rfl | rfl
  · refine ⟨fun x => rfl, fun y => rfl, fun x => ?_⟩
    show x + 1 - 1 = x
    ring
  · refine ⟨fun x => rfl, fun y => rfl, fun x => ?_⟩
    show 2 * x / 2 = x
    ring

namespace Stribor

theorem AffineLU_L_lowerTri {n : ℕ} (f : AffineLU n) : Torch.LowerTri f.L := by
  intro i j h
  show (if j < i then f.weight i j else 0) + (if i = j then 1 else 0) = 0
  rw [if_neg (lt_asymm h), if_neg (ne_of_lt h), add_zero]

theorem AffineLU_L_diag {n : ℕ} (f : AffineLU n) (i : Fin n) : f.L i i = 1 := by
  show (if i < i then f.weight i i else 0) + (if i = i then 1 else 0) = 1
  rw [if_neg (lt_irrefl i), if_pos rfl, zero_add]

theorem AffineLU_U_upperTri {n : ℕ} (f : AffineLU n) (e : ℚ → ℚ) :
    Torch.UpperTri (f.U e) := by
  intro i j h
  show (if i < j then f.weight i j else 0) + (if i = j then e (f.log_diag j) else 0) = 0
  rw [if_neg (lt_asymm h), if_neg (ne_of_gt h), add_zero]

theorem AffineLU_U_diag {n : ℕ} (f : AffineLU n) (e : ℚ → ℚ) (i : Fin n) :
    f.U e i i = e (f.log_diag i) := by
  show (if i < i then f.weight i i else 0) + (if i = i then e (f.log_diag i) else 0) = _
  rw [if_neg (lt_irrefl i), if_pos rfl, zero_add]

theorem MatExp_Lfac_lowerTri {n : ℕ} (m : MatrixExponential n) :
    Torch.LowerTri m.Lfac := by
  intro i j h
  show (if j < i then m._weight i j else 0) + (if i = j then 1 else 0) = 0
  rw [if_neg (lt_asymm h), if_neg (ne_of_lt h), add_zero]

theorem MatExp_Lfac_diag {n : ℕ} (m : MatrixExponential n) (i : Fin n) :
    m.Lfac i i = 1 := by
  show (if i < i then m._weight i i else 0) + (if i = i then 1 else 0) = 1
  rw [if_neg (lt_irrefl i), if_pos rfl, zero_add]

theorem MatExp_Ufac_upperTri {n : ℕ} (m : MatrixExponential n) :
    Torch.UpperTri m.Ufac := by
  intro i j h
  show (if i ≤ j then m._weight i j else 0) + (if i = j then 1 else 0) = 0
  rw [if_neg (not_le.mpr h), if_neg (ne_of_gt h), add_zero]

theorem MatExp_Ufac_diag {n : ℕ} (m : MatrixExponential n) (i : Fin n) :
    m.Ufac i i = m._weight i i + 1 := by
  show (if i ≤ i then m._weight i i else 0) + (if i = i then 1 else 0) = _
  rw [if_pos (le_refl i), if_pos rfl]

end Stribor

/-- Claim C5 (amended): for every `MatrixExponential` without bias (the
construction default `bias=False`) whose internal factor `U` has nonzero
diagonal, `forward(x, t=0)` returns `x` exactly in exact arithmetic; and for
every `MatrixExponential` the `log_det_jacobian` at `t=0` is `0`. -/
theorem matrix_exponential_time_zero_identity {n : ℕ}
    (m : Stribor.MatrixExponential n) (e l1p : ℚ → ℚ) (x : Torch.Vec n)
    (he : e 0 = 1) (hl : l1p 0 = 0) (hU : ∀ i, m._weight i i + 1 ≠ 0) :
    (m.bias = none → m.forward e l1p x 0 false = x) ∧
    m.log_det_jacobian l1p 0 = 0 := by
  have ht : m.get_time l1p 0 = 0 := by
    rcases hlt : m.log_time with _ | _ <;>
      simp [Stribor.MatrixExponential.get_time, hlt, hl]
  constructor
  · intro hbias
    show
      (if false = false then
        (match m.bias with
         | some b => fun i =>
            m.Lfac.mulVec (m.Ufac.mulVec (fun i =>
              Torch.usolve false m.Ufac (Torch.lsolve true m.Lfac x) i *
                e (m.diag i * (if false = true then -(m.get_time l1p 0) else m.get_time l1p 0)))) i + b i
         | none =>
            m.Lfac.mulVec (m.Ufac.mulVec (fun i =>
              Torch.usolve false m.Ufac (Torch.lsolve true m.Lfac x) i *
                e (m.diag i * (if false = true then -(m.get_time l1p 0) else m.get_time l1p 0)))))
       else
        (match m.bias with
         | some b => fun i =>
            m.Lfac.mulVec (m.Ufac.mulVec (fun i =>
              Torch.usolve false m.Ufac (Torch.lsolve true m.Lfac x) i *
                e (m.diag i * (if false = true then -(m.get_time l1p 0) else m.get_time l1p 0)))) i + b i
         | none =>
            m.Lfac.mulVec (m.Ufac.mulVec (fun i =>
              Torch.usolve false m.Ufac (Torch.lsolve true m.Lfac x) i *
                e (m.diag i * (if false = true then -(m.get_time l1p 0) else m.get_time l1p 0)))))) = x
    rw [hbias]
    simp only [Bool.false_eq_true, if_false, if_true, eq_self_iff_true, ht,
      mul_zero, he, mul_one]
    rw [Torch.mulVec_usolve false m.Ufac _ (Stribor.MatExp_Ufac_upperTri m)
        (fun i => by rw [Stribor.MatExp_Ufac_diag]; exact hU i)
        (fun h => nomatch h),
      Torch.mulVec_lsolve true m.Lfac x (Stribor.MatExp_Lfac_lowerTri m)
        (fun i => by rw [Stribor.MatExp_Lfac_diag]; norm_num)
        (fun _ => Stribor.MatExp_Lfac_diag m)]
  · show (∑ i, m.diag i) * m.get_time l1p 0 = 0
    rw [ht, mul_zero]

/-- Witness for the amended C5 at the concrete bias-free transform
`mexpC5w` and `x = 5`. -/
theorem matrix_exponential_time_zero_identity_witness :
    mexpC5w.forward (fun _ => 1) (fun _ => 0) (fun _ => 5) 0 false = (fun _ => 5) ∧
    mexpC5w.log_det_jacobian (fun _ => 0) 0 = 0 :=
  ⟨(matrix_exponential_time_zero_identity mexpC5w (fun _ => 1) (fun _ => 0)
      (fun _ => 5) rfl rfl (fun i => by show (0 : ℚ) + 1 ≠ 0; norm_num)).1 rfl,
   (matrix_exponential_time_zero_identity mexpC5w (fun _ => 1) (fun _ => 0)
      (fun _ => 5) rfl rfl (fun i => by show (0 : ℚ) + 1 ≠ 0; norm_num)).2⟩

/-- Counterexample to claim C5 as stated: for the `MatrixExponential`
`mexpC5` constructed with `bias=True` (bias value `1`), `forward(x, t=0)` is
`x + bias ≠ x` — at `x = 0` the output is `1`. -/
theorem matrix_exponential_bias_time_zero_counterexample :
    mexpC5.forward (fun _ => 1) (fun _ => 0) 0 0 false ≠ 0 := by
  have hLt := Stribor.MatExp_Lfac_lowerTri mexpC5
  have hUt := Stribor.MatExp_Ufac_upperTri mexpC5
  have hLd : ∀ i, mexpC5.Lfac i i ≠ 0 := fun i => by
    rw [Stribor.MatExp_Lfac_diag]
    norm_num
  have hUd : ∀ i, mexpC5.Ufac i i ≠ 0 := fun i => by
    rw [Stribor.MatExp_Ufac_diag]
    have hw : mexpC5._weight i i = 0 := rfl
    rw [hw]
    norm_num
  have hls : Torch.lsolve true mexpC5.Lfac 0 = 0 := by
    conv_lhs => rw [show (0 : Torch.Vec 1) = mexpC5.Lfac.mulVec 0 from
      (Matrix.mulVec_zero _).symm]
    exact Torch.lsolve_mulVec true _ _ hLt hLd
      (fun _ => Stribor.MatExp_Lfac_diag mexpC5)
  have hus : Torch.usolve false mexpC5.Ufac 0 = 0 := by
    conv_lhs => rw [show (0 : Torch.Vec 1) = mexpC5.Ufac.mulVec 0 from
      (Matrix.mulVec_zero _).symm]
    exact Torch.usolve_mulVec false _ _ hUt hUd (fun h => nomatch h)
  have hval : mexpC5.forward (fun _ => 1) (fun _ => 0) 0 0 false = fun _ => 1 := by
    funext i
    show mexpC5.Lfac.mulVec (mexpC5.Ufac.mulVec (fun i =>
        Torch.usolve false mexpC5.Ufac (Torch.lsolve true mexpC5.Lfac 0) i * 1)) i
      + 1 = 1
    rw [hls, hus]
    simp [Matrix.mulVec, Matrix.dotProduct]
  intro h
  rw [hval] at h
  have h0 := congrFun h 0
  simp at h0

/-- Claim C6: for every `Affine` transform, every `AffineLU` transform (with
nonsingular `U`, guaranteed since its diagonal is `exp(log_diag)`), and every
`MatrixExponential` transform with nonsingular internal factor `U`, the round
trip `inverse(forward(x))` returns `x` exactly in exact arithmetic (using the
real-exponential law `exp(a) * exp(-a) = 1`). -/
theorem affine_family_roundtrip :
    (∀ (d : ℕ) (A : Stribor.Affine d) (e : ℚ → ℚ) (x : Fin d → ℚ)
        (latent : Option (List ℚ)) (s b : Fin d → ℚ),
      (∀ a, e a * e (-a) = 1) →
      A._get_params latent = some (s, b) →
      (A.forward e x latent).bind (fun y => A.inverse e y latent) = some x) ∧
    (∀ (n : ℕ) (f : Stribor.AffineLU n) (e : ℚ → ℚ) (x : Torch.Vec n),
      (∀ a, e a * e (-a) = 1) →
      f.inverse e (f.forward e x) = x) ∧
    (∀ (n : ℕ) (m : Stribor.MatrixExponential n) (e l1p : ℚ → ℚ)
        (x : Torch.Vec n) (t : ℚ),
      (∀ a, e a * e (-a) = 1) →
      (∀ i, m._weight i i + 1 ≠ 0) →
      m.inverse e l1p (m.forward e l1p x t false) t = x) := by
  refine ⟨?_, ?_, ?_⟩
  · -- Affine
    intro d A e x latent s b he hp
    simp only [Stribor.Affine.forward, Stribor.Affine.inverse,
      Stribor.Affine.inverse_and_log_det_jacobian,
      Stribor.Affine.forward_and_log_det_jacobian, hp, Option.map_some',
      Option.some_bind, Bool.false_eq_true, Bool.true_eq_false, if_false,
      if_true, eq_self_iff_true]
    refine congrArg some (funext fun i => ?_)
    have h1 : x i * e (s i) + b i - b i = x i * e (s i) := by ring
    rw [h1, mul_assoc, he (s i), mul_one]
  · -- AffineLU
    intro n f e x he
    have hUt := Stribor.AffineLU_U_upperTri f e
    have hUd : ∀ i, (f.U e) i i ≠ 0 := fun i => by
      rw [Stribor.AffineLU_U_diag]
      exact left_ne_zero_of_mul_eq_one (he (f.log_diag i))
    have hLt := Stribor.AffineLU_L_lowerTri f
    simp only [Stribor.AffineLU.inverse, Stribor.AffineLU.forward,
      Torch.rsolveUpper, Torch.rsolveLower, add_sub_cancel_right]
    rw [← Matrix.vecMul_vecMul, ← Matrix.mulVec_transpose (f.U e) (Matrix.vecMul x f.L)]
    rw [Torch.lsolve_mulVec false _ _ (Torch.lowerTri_transpose hUt)
      (fun i => by rw [Matrix.transpose_apply]; exact hUd i) (fun h => nomatch h)]
    rw [← Matrix.mulVec_transpose f.L x]
    rw [Torch.usolve_mulVec false _ _ (Torch.upperTri_transpose hLt)
      (fun i => by rw [Matrix.transpose_apply, Stribor.AffineLU_L_diag]; norm_num)
      (fun h => nomatch h)]
  · -- MatrixExponential
    intro n m e l1p x t he hU
    have hLt := Stribor.MatExp_Lfac_lowerTri m
    have hUt := Stribor.MatExp_Ufac_upperTri m
    have hLd : ∀ i, m.Lfac i i ≠ 0 := fun i => by
      rw [Stribor.MatExp_Lfac_diag]
      norm_num
    have hLu : ∀ i, m.Lfac i i = 1 := Stribor.MatExp_Lfac_diag m
    have hUd : ∀ i, m.Ufac i i ≠ 0 := fun i => by
      rw [Stribor.MatExp_Ufac_diag]
      exact hU i
    rcases hb : m.bias with _ | b
    all_goals
      simp only [Stribor.MatrixExponential.inverse,
        Stribor.MatrixExponential.forward, hb, Bool.false_eq_true,
        Bool.true_eq_false, if_false, if_true, eq_self_iff_true,
        add_sub_cancel_right]
    all_goals
      rw [Torch.lsolve_mulVec true m.Lfac _ hLt hLd (fun _ => hLu)]
      rw [Torch.usolve_mulVec false m.Ufac _ hUt hUd (fun h => nomatch h)]
      have hpt : (fun i => (Torch.usolve false m.Ufac (Torch.lsolve true m.Lfac x) i *
          e (m.diag i * m.get_time l1p t)) * e (m.diag i * -(m.get_time l1p t))) =
          Torch.usolve false m.Ufac (Torch.lsolve true m.Lfac x) := by
        funext i
        rw [mul_assoc, show m.diag i * -(m.get_time l1p t) =
          -(m.diag i * m.get_time l1p t) from by ring, he _, mul_one]
      rw [hpt]
      rw [Torch.mulVec_usolve false m.Ufac _ hUt hUd (fun h => nomatch h)]
      rw [Torch.mulVec_lsolve true m.Lfac _ hLt hLd (fun _ => hLu)]

/-- Witness for C6 at concrete transforms (`affC6`, `luC6`, `mexpC6`) and
input `x = 9` (`t = 5` for the matrix exponential), with the constant-one
stand-in for `exp`. -/
theorem affine_family_roundtrip_witness :
    ((affC6.forward (fun _ => 1) (fun _ => 9) none).bind
        (fun y => affC6.inverse (fun _ => 1) y none) = some (fun _ => 9)) ∧
    luC6.inverse (fun _ => 1) (luC6.forward (fun _ => 1) (fun _ => 9)) =
      (fun _ => 9) ∧
    mexpC6.inverse (fun _ => 1) (fun q => q)
        (mexpC6.forward (fun _ => 1) (fun q => q) (fun _ => 9) 5 false) 5 =
      (fun _ => 9) := by
  have he : ∀ a : ℚ, (fun _ : ℚ => (1 : ℚ)) a * (fun _ : ℚ => (1 : ℚ)) (-a) = 1 :=
    fun a => by norm_num
  exact ⟨affine_family_roundtrip.1 1 affC6 (fun _ => 1) (fun _ => 9) none
      (fun _ => 4) (fun _ => 7) he rfl,
    affine_family_roundtrip.2.1 1 luC6 (fun _ => 1) (fun _ => 9) he,
    affine_family_roundtrip.2.2 1 mexpC6 (fun _ => 1) (fun q => q)
      (fun _ => 9) 5 he (fun i => by show (0 : ℚ) + 1 ≠ 0; norm_num)⟩
